import Mathlib

/-!
# Verification of the MCQ auditor service (`src/main.py`)

A shallow embedding of the single-module FastAPI service that fetches a
Google-Docs text export, segments it into question blocks with the regex
`(Q\s*(\d+)\s*.*?)(?=Q\s*\d+\s*|\Z)` (DOTALL), classifies each block through
an external Gemini call, and aggregates the verdicts.

Modelling conventions:
* Strings are `String`/`List Char`; the regex character classes `\s` and `\d`
  are modelled on their ASCII members (the service's inputs are plain text).
* The lazy `.*?` with the lookahead `(?=Q\s*\d+\s*|\Z)` is embedded
  operationally: scan forward to the first position where another question
  marker begins, or to end-of-text.  Since the lookahead alternative `\Z`
  always succeeds at the end of the input, the greedy prefixes `\s*`/`\d+`
  never backtrack, so this scan is exactly the regex engine's behaviour.
* The external Gemini call is a black box: the loop is parameterised by a
  stub giving the outcome of the k-th call (1-indexed).
* The loop's side effects (one oracle call per block, `asyncio.sleep(5)`)
  are recorded in an event trace.
-/

/-- The ASCII members of the regex class `\s` (Python `str.strip` uses the
same set): space, tab, newline, carriage return, vertical tab, form feed. -/
def isPySpace (c : Char) : Bool :=
  c = ' ' || c = '\t' || c = '\n' || c = '\r' || c = '\x0b' || c = '\x0c'

/-- The ASCII members of the regex class `\d`. -/
def isAsciiDigit (c : Char) : Bool :=
  '0' ≤ c && c ≤ '9'

/-- Remove trailing characters satisfying `isPySpace` (the right half of
Python's `str.strip()`). -/
def rstrip (cs : List Char) : List Char :=
  (cs.reverse.dropWhile isPySpace).reverse

/-- Python's `str.strip()`: drop leading and trailing whitespace. -/
def pyStrip (cs : List Char) : List Char :=
  rstrip (cs.dropWhile isPySpace)

/-- Does the marker pattern `Q\s*\d+` match at the head of `cs`?  This is the
pattern the segmenter's lookahead `(?=Q\s*\d+\s*|\Z)` tests (its trailing
`\s*` is always satisfiable, so it does not affect where the lookahead
holds). -/
def markerAt (cs : List Char) : Bool :=
  match cs with
  | [] => false
  | c :: rest =>
    (c == 'Q') &&
      (match rest.dropWhile isPySpace with
       | [] => false
       | d :: _ => isAsciiDigit d)

/-- Match the mandatory prefix `Q\s*(\d+)\s*` of the segmenter's regex at the
head of `cs`.  Returns `(consumed prefix, captured digit run, remainder)`;
`none` when the prefix does not match here. -/
def matchHead (cs : List Char) : Option (List Char × List Char × List Char) :=
  match cs with
  | [] => none
  | c :: rest =>
    if c = 'Q' then
      let ws1 := rest.takeWhile isPySpace
      let r1 := rest.dropWhile isPySpace
      let ds := r1.takeWhile isAsciiDigit
      let r2 := r1.dropWhile isAsciiDigit
      if ds.isEmpty then none
      else
        let ws2 := r2.takeWhile isPySpace
        let r3 := r2.dropWhile isPySpace
        some ('Q' :: (ws1 ++ ds ++ ws2), ds, r3)
    else none

/-- The lazy `.*?` before the lookahead: split `cs` at the first position
where another question marker begins (or at end-of-text).  Returns
`(consumed body, remainder)`. -/
def scanBody (cs : List Char) : List Char × List Char :=
  match cs with
  | [] => ([], [])
  | c :: rest =>
    if markerAt (c :: rest) then ([], c :: rest)
    else
      let p := scanBody rest
      (c :: p.1, p.2)

/-- `re.finditer`'s scan to the leftmost position where the regex (hence its
mandatory prefix `Q\s*\d+`) matches. -/
def skipToMarker (cs : List Char) : List Char :=
  match cs with
  | [] => []
  | c :: rest => if markerAt (c :: rest) then c :: rest else skipToMarker rest

/-- One `re.finditer` pass of `(Q\s*(\d+)\s*.*?)(?=Q\s*\d+\s*|\Z)` with
DOTALL, fuel-indexed for structural recursion: each element is
`(group 1, group 2)` of one match, in order.  `findMatches` supplies enough
fuel that the fuel never runs out. -/
def findMatchesF : Nat → List Char → List (List Char × List Char)
  | 0, _ => []
  | fuel + 1, cs =>
    match matchHead (skipToMarker cs) with
    | none => []
    | some (pre, ds, after) =>
      let p := scanBody after
      (pre ++ p.1, ds) :: findMatchesF fuel p.2

/-- All matches of the segmentation regex over `cs`, as
`(group 1, group 2)` pairs in order of appearance. -/
def findMatches (cs : List Char) : List (List Char × List Char) :=
  findMatchesF (cs.length + 1) cs

/-- The number of positions of `cs` at which a question marker
(`Q` followed by optional whitespace and one-or-more digits) begins. -/
def markerCount : List Char → Nat
  | [] => 0
  | c :: rest => (if markerAt (c :: rest) then 1 else 0) + markerCount rest

/-- Concatenation of the matched spans (group 1 of each match). -/
def spansJoin (ms : List (List Char × List Char)) : List Char :=
  ms.foldr (fun m acc => m.1 ++ acc) []

/-- One entry of `parsed_questions` (lines 104-107 of `src/main.py`). -/
structure ParsedQuestion where
  q_num_str : String
  full_text : String
deriving DecidableEq, Repr

/-- `parse_mcqs_from_text` (lines 94-108): for each regex match, keep
`{q_num_str := group(2).strip(), full_text := group(1).strip()}` provided the
stripped full text is non-empty. -/
def parse_mcqs_from_text (doc_text : String) : List ParsedQuestion :=
  (findMatches doc_text.toList).filterMap fun m =>
    let full_text := pyStrip m.1
    let q_num := pyStrip m.2
    if full_text.isEmpty then none
    else some ⟨String.mk q_num, String.mk full_text⟩

example : parse_mcqs_from_text "Q1 a Q2 b" =
    [⟨"1", "Q1 a"⟩, ⟨"2", "Q2 b"⟩] := by decide

example : parse_mcqs_from_text "no markers here" = [] := by decide

example : parse_mcqs_from_text "Q1 What is 2+2? A)4 B)2+2 C)5 D)6" =
    [⟨"1", "Q1 What is 2+2? A)4 B)2+2 C)5 D)6"⟩] := by decide

/-- The characters the id pattern `[a-zA-Z0-9-_]` of `extract_doc_id` accepts. -/
def isIdChar (c : Char) : Bool :=
  ('a' ≤ c && c ≤ 'z') || ('A' ≤ c && c ≤ 'Z') || ('0' ≤ c && c ≤ '9') ||
    c = '-' || c = '_'

/-- Does `/d/([a-zA-Z0-9-_]+)` match at the head of `cs`?  If so, return the
captured (greedy) id run. -/
def matchDocIdAt (cs : List Char) : Option (List Char) :=
  match cs with
  | '/' :: 'd' :: '/' :: rest =>
    let ds := rest.takeWhile isIdChar
    if ds.isEmpty then none else some ds
  | _ => none

/-- `extract_doc_id` (lines 77-79): `re.search(r'/d/([a-zA-Z0-9-_]+)', url)`,
returning group 1 of the leftmost match, else `None`. -/
def extract_doc_id (url : List Char) : Option (List Char) :=
  match url with
  | [] => none
  | c :: rest =>
    match matchDocIdAt (c :: rest) with
    | some ds => some ds
    | none => extract_doc_id rest

example : extract_doc_id "https://docs.google.com/document/d/abc-1_X/edit".toList
    = some "abc-1_X".toList := by decide

/-- The decimal value of a digit run. -/
def digitsToNat (ds : List Char) : Nat :=
  ds.foldl (fun acc c => acc * 10 + (c.toNat - '0'.toNat)) 0

/-- Model of Python's `int(s)` on a string: strip whitespace, allow one
optional sign, then require a non-empty digit run; `none` models the raised
`ValueError`.  (Digit-group separators are not modelled; every label this
program converts is a plain digit run.) -/
def pyIntExn (s : String) : Option Int :=
  match pyStrip s.toList with
  | [] => none
  | c :: r =>
    if c = '+' then
      if !r.isEmpty && r.all isAsciiDigit then some (digitsToNat r) else none
    else if c = '-' then
      if !r.isEmpty && r.all isAsciiDigit then some (-(digitsToNat r : Int)) else none
    else
      if isAsciiDigit c && r.all isAsciiDigit then
        some (digitsToNat (c :: r))
      else none

example : pyIntExn "12" = some 12 := by decide
example : pyIntExn "abc" = none := by decide

/-- The three-field verdict object of `MCQ_SCHEMA` (lines 56-74), as parsed
from the model's JSON or synthesized by the loop. -/
structure Verdict where
  q_no : Int
  optionStatus : String
  issueSummary : Option String
deriving DecidableEq, Repr

/-- The three outcomes of `run_mcq_audit_gemini` the endpoint distinguishes
(lines 113-134): the sentinel string `"RATE_LIMIT_ERROR"`, `None` (any other
API or JSON error), or a parsed verdict object.  A parsed three-field verdict
is a non-empty dict, hence truthy under the endpoint's `elif result_obj:`. -/
inductive OracleResult where
  | rateLimited : OracleResult
  | failed : OracleResult
  | ok : Verdict → OracleResult
deriving DecidableEq, Repr

/-- What one Gemini call did, before the `except` clause interprets it:
either a response whose text parsed to a verdict, or a raised exception with
a message. -/
inductive GeminiOutcome where
  | success : Verdict → GeminiOutcome
  | exn : String → GeminiOutcome
deriving DecidableEq, Repr

/-- Python's `pat in s` on strings: `pat` occurs contiguously in `s`. -/
def containsSub (pat : List Char) : List Char → Bool
  | [] => pat.isEmpty
  | c :: rest => pat.isPrefixOf (c :: rest) || containsSub pat rest

/-- The `except` logic of `run_mcq_audit_gemini` (lines 129-134): an
exception whose text contains `"429"` yields the rate-limit sentinel, any
other exception yields `None`; a successful parse is returned as-is. -/
def run_mcq_audit_gemini (outcome : GeminiOutcome) : OracleResult :=
  match outcome with
  | .success v => .ok v
  | .exn msg => if containsSub "429".toList msg.toList then .rateLimited else .failed

example : run_mcq_audit_gemini (.exn "HTTP 429 quota exceeded") = .rateLimited := by decide
example : run_mcq_audit_gemini (.exn "JSONDecodeError") = .failed := by decide

/-- The verdict synthesized on the rate-limit branch (lines 172-176). -/
def rlVerdict (n : Int) : Verdict :=
  ⟨n, "Inconclusive", some "Failed: API Rate Limit hit."⟩

/-- The verdict synthesized on the failure branch (lines 183-187). -/
def failVerdict (n : Int) : Verdict :=
  ⟨n, "Inconclusive", some "Failed to audit (API or JSON error)"⟩

/-- The observable actions of the audit loop: one oracle call per block
(with its 1-indexed call number and the text sent), and each
`await asyncio.sleep(5)`. -/
inductive Event where
  | call : Nat → String → Event
  | sleep : Nat → Event
deriving DecidableEq, Repr

/-- The `for question in parsed_questions` loop of `audit_document`
(lines 164-192), with the k-th oracle call's outcome given by `stub k`.
Returns the report (`none` models the uncaught `ValueError` from
`int(q_num_str)`, which aborts the request) and the event trace.  On the
rate-limit branch the synthesized verdict is appended and the partial list
returned immediately — before the sleep; on the failure branch the verdict is
synthesized and the loop continues; otherwise the parsed object is appended
verbatim.  Every continuing iteration ends with `sleep 5`. -/
def auditLoop (stub : Nat → OracleResult) (idx : Nat) :
    List ParsedQuestion → Option (List Verdict) × List Event
  | [] => (some [], [])
  | q :: rest =>
    match stub idx with
    | .rateLimited =>
      match pyIntExn q.q_num_str with
      | none => (none, [.call idx q.full_text])
      | some n => (some [rlVerdict n], [.call idx q.full_text])
    | .ok v =>
      let p := auditLoop stub (idx + 1) rest
      (p.1.map (fun vs => v :: vs), .call idx q.full_text :: .sleep 5 :: p.2)
    | .failed =>
      match pyIntExn q.q_num_str with
      | none => (none, [.call idx q.full_text])
      | some n =>
        let p := auditLoop stub (idx + 1) rest
        (p.1.map (fun vs => failVerdict n :: vs),
         .call idx q.full_text :: .sleep 5 :: p.2)

/-- The trace of a run in which every block is processed and followed by the
throttle sleep: call `idx`, sleep 5, call `idx+1`, sleep 5, … -/
def fullTrace (idx : Nat) : List ParsedQuestion → List Event
  | [] => []
  | q :: rest => .call idx q.full_text :: .sleep 5 :: fullTrace (idx + 1) rest

/-- The call numbers appearing in a trace, in order. -/
def callIndices : List Event → List Nat
  | [] => []
  | .call i _ :: es => i :: callIndices es
  | _ :: es => callIndices es

/-- The number of oracle calls in a trace. -/
def callCount : List Event → Nat
  | [] => 0
  | .call _ _ :: es => callCount es + 1
  | _ :: es => callCount es

/-- The number of sleeps in a trace. -/
def sleepCount : List Event → Nat
  | [] => 0
  | .sleep _ :: es => sleepCount es + 1
  | _ :: es => sleepCount es

/-- C5's reading of the throttle: every oracle call is immediately followed
by a five-unit sleep, with no exception. -/
def strictThrottle : List Event → Bool
  | [] => true
  | .call _ _ :: .sleep 5 :: rest => strictThrottle rest
  | .call _ _ :: _ => false
  | _ :: rest => strictThrottle rest

/-- The throttle shape the loop actually guarantees: every oracle call is
immediately followed by a five-unit sleep, except possibly a call that is the
final event of the trace (one that terminated the audit). -/
def throttleOk : List Event → Bool
  | [] => true
  | [.call _ _] => true
  | .call _ _ :: .sleep 5 :: rest => throttleOk rest
  | _ => false

/-- Python truthiness of `GOOGLE_API_KEY` / `doc_text`: an absent value or
an empty string is falsy. -/
def pyTruthyOpt : Option String → Bool
  | none => false
  | some s => !(s == "")

/-- How one request ends: a raised `HTTPException` with status and detail,
a 200 response carrying the report, or an uncaught exception. -/
inductive Response where
  | httpError : Nat → String → Response
  | ok : List Verdict → Response
  | crashed : Response
deriving DecidableEq, Repr

/-- The outcome of the GET in `get_google_doc_text`: an HTTP response
(status and UTF-8-decoded body) or a raised `requests` exception. -/
inductive FetchOutcome where
  | http : Nat → String → FetchOutcome
  | requestError : String → FetchOutcome
deriving DecidableEq, Repr

/-- `get_google_doc_text` (lines 81-92): return the body on status 200,
`None` on any other status or on a transport error. -/
def get_google_doc_text (o : FetchOutcome) : Option String :=
  match o with
  | .http status body => if status = 200 then some body else none
  | .requestError _ => none

/-- Whether module initialization (lines 19-25) raises when the key is
absent: the falsy branch only prints `"FATAL ERROR: ..."` — the source's own
comment notes a real app would raise to stop startup — so neither branch
raises and the server starts either way. -/
def startup_raises (apiKey : Option String) : Bool :=
  if pyTruthyOpt apiKey then false else false

/-- The `audit_document` endpoint (lines 141-195): key check, id extraction,
fetch (`fetch` stands for `get_google_doc_text` applied to the id),
truthiness check of the fetched text, segmentation, then the audit loop with
the k-th call's outcome given by `stub k`.  Paired with the event trace of
the loop. -/
def audit_document (apiKey : Option String) (docUrl : String)
    (fetch : String → Option String) (stub : Nat → OracleResult) :
    Response × List Event :=
  if !pyTruthyOpt apiKey then
    (.httpError 500 "Server is missing GOOGLE_API_KEY", [])
  else
    match extract_doc_id docUrl.toList with
    | none => (.httpError 400 "Invalid Google Doc link.", [])
    | some doc_id =>
      let doc_text := fetch (String.mk doc_id)
      if !pyTruthyOpt doc_text then
        (.httpError 404 "Failed to get document text. Is it public?", [])
      else
        let txt := match doc_text with | some t => t | none => ""
        let parsed_questions := parse_mcqs_from_text txt
        if parsed_questions.isEmpty then
          (.httpError 404 "No valid question blocks (e.g., 'Q1') found.", [])
        else
          match auditLoop stub 1 parsed_questions with
          | (some report, es) => (.ok report, es)
          | (none, es) => (.crashed, es)

/-- The digit run immediately following the `Q` (after optional whitespace)
at the start of a block's raw text, as C8's round-trip words describe it. -/
def extractHeaderDigits (cs : List Char) : Option (List Char) :=
  match cs with
  | [] => none
  | c :: rest =>
    if c = 'Q' then
      let ds := (rest.dropWhile isPySpace).takeWhile isAsciiDigit
      if ds.isEmpty then none else some ds
    else none

example :
    audit_document (some "k") "https://docs.google.com/document/d/abc/edit"
      (fun _ => some "Q1 a Q2 b") (fun _ => .ok ⟨7, "OK", none⟩)
    = (.ok [⟨7, "OK", none⟩, ⟨7, "OK", none⟩],
       [.call 1 "Q1 a", .sleep 5, .call 2 "Q2 b", .sleep 5]) := by decide

example :
    audit_document (some "k") "https://docs.google.com/document/d/abc/edit"
      (fun _ => some "Q1 a Q2 b") (fun _ => .rateLimited)
    = (.ok [rlVerdict 1], [.call 1 "Q1 a"]) := by decide

/-! ## Character-class facts -/

theorem of_isPySpace {c : Char} (h : isPySpace c = true) :
    c = ' ' ∨ c = '\t' ∨ c = '\n' ∨ c = '\r' ∨ c = '\x0b' ∨ c = '\x0c' := by
  simp [isPySpace] at h
  tauto

theorem pySpace_not_digit {c : Char} (h : isPySpace c = true) :
    isAsciiDigit c = false := by
  rcases of_isPySpace h with rfl | rfl | rfl | rfl | rfl | rfl <;> decide

theorem pySpace_ne_Q {c : Char} (h : isPySpace c = true) : c ≠ 'Q' := by
  rcases of_isPySpace h with rfl | rfl | rfl | rfl | rfl | rfl <;> decide

theorem digit_not_pySpace {c : Char} (h : isAsciiDigit c = true) :
    isPySpace c = false := by
  cases hw : isPySpace c with
  | false => rfl
  | true => rw [pySpace_not_digit hw] at h; exact absurd h (by decide)

theorem digit_ne_Q {c : Char} (h : isAsciiDigit c = true) : c ≠ 'Q' := by
  intro hc; subst hc; exact absurd h (by decide)

/-! ## takeWhile / dropWhile helpers -/

theorem dropWhile_head_false {p : Char → Bool} :
    ∀ {l : List Char} {c : Char} {t : List Char},
      l.dropWhile p = c :: t → p c = false := by
  intro l
  induction l with
  | nil => intro c t h; simp [List.dropWhile] at h
  | cons x xs ih =>
    intro c t h
    by_cases hx : p x
    · rw [List.dropWhile_cons_of_pos hx] at h; exact ih h
    · rw [List.dropWhile_cons_of_neg hx] at h
      cases h; simpa using hx

theorem dropWhile_eq_nil_all {p : Char → Bool} :
    ∀ {l : List Char}, l.dropWhile p = [] → ∀ x ∈ l, p x = true := by
  intro l
  induction l with
  | nil => intro _ x hx; cases hx
  | cons y ys ih =>
    intro h x hx
    by_cases hy : p y
    · rw [List.dropWhile_cons_of_pos hy] at h
      rcases List.mem_cons.mp hx with rfl | hx
      · exact hy
      · exact ih h x hx
    · rw [List.dropWhile_cons_of_neg hy] at h; cases h

theorem dropWhile_append_all {p : Char → Bool} :
    ∀ {xs} (ys : List Char), (∀ x ∈ xs, p x = true) →
      (xs ++ ys).dropWhile p = ys.dropWhile p := by
  intro xs
  induction xs with
  | nil => intro ys _; rfl
  | cons x xs ih =>
    intro ys h
    have hx : p x = true := h x (List.mem_cons_self ..)
    rw [List.cons_append, List.dropWhile_cons_of_pos hx]
    exact ih ys fun a ha => h a (List.mem_cons_of_mem _ ha)

theorem dropWhile_append_ne_nil {p : Char → Bool} :
    ∀ {xs} (ys : List Char), xs.dropWhile p ≠ [] →
      (xs ++ ys).dropWhile p = xs.dropWhile p ++ ys := by
  intro xs
  induction xs with
  | nil => intro ys h; exact absurd rfl h
  | cons x xs ih =>
    intro ys h
    by_cases hx : p x
    · rw [List.dropWhile_cons_of_pos hx] at h
      simp only [List.cons_append, List.dropWhile_cons_of_pos hx]
      exact ih ys h
    · rw [List.cons_append, List.dropWhile_cons_of_neg hx,
        List.dropWhile_cons_of_neg hx, List.cons_append]

theorem dropWhile_all_neg {p : Char → Bool} {l : List Char}
    (h : ∀ x ∈ l, p x = false) : l.dropWhile p = l := by
  cases l with
  | nil => rfl
  | cons x xs =>
    have := h x (List.mem_cons_self ..)
    rw [List.dropWhile_cons_of_neg (by simp [this])]

theorem takeWhile_append_all {p : Char → Bool} :
    ∀ {xs} (ys : List Char), (∀ x ∈ xs, p x = true) →
      (xs ++ ys).takeWhile p = xs ++ ys.takeWhile p := by
  intro xs
  induction xs with
  | nil => intro ys _; rfl
  | cons x xs ih =>
    intro ys h
    have hx : p x = true := h x (List.mem_cons_self ..)
    rw [List.cons_append, List.takeWhile_cons_of_pos hx, List.cons_append,
      ih ys fun a ha => h a (List.mem_cons_of_mem _ ha)]

theorem takeWhile_all_pos {p : Char → Bool} {l : List Char}
    (h : ∀ x ∈ l, p x = true) : l.takeWhile p = l := by
  induction l with
  | nil => rfl
  | cons x xs ih =>
    rw [List.takeWhile_cons_of_pos (h x (List.mem_cons_self ..)),
      ih fun a ha => h a (List.mem_cons_of_mem _ ha)]

theorem takeWhile_nil_of_head_neg {p : Char → Bool} {c : Char} {l : List Char}
    (h : p c = false) : (c :: l).takeWhile p = [] := by
  rw [List.takeWhile_cons_of_neg (by simp [h])]

theorem dropWhile_eq_self_of_takeWhile_nil {p : Char → Bool} :
    ∀ {l : List Char}, l.takeWhile p = [] → l.dropWhile p = l := by
  intro l
  cases l with
  | nil => intro _; rfl
  | cons x xs =>
    intro h
    by_cases hx : p x
    · rw [List.takeWhile_cons_of_pos hx] at h; cases h
    · rw [List.dropWhile_cons_of_neg hx]

/-! ## rstrip / pyStrip helpers -/

theorem rstrip_nil : rstrip [] = [] := rfl

theorem rstrip_eq_nil_iff {l : List Char} :
    rstrip l = [] ↔ ∀ x ∈ l, isPySpace x = true := by
  constructor
  · intro h x hx
    have : l.reverse.dropWhile isPySpace = [] := by
      have := congrArg List.reverse h
      simpa [rstrip] using this
    exact dropWhile_eq_nil_all this x (List.mem_reverse.mpr hx)
  · intro h
    have : l.reverse.dropWhile isPySpace = [] := by
      have : l.reverse.takeWhile isPySpace = l.reverse :=
        takeWhile_all_pos fun a ha => h a (List.mem_reverse.mp ha)
      have h2 := List.takeWhile_append_dropWhile isPySpace l.reverse
      rw [this] at h2
      have h3 : l.reverse.length + (l.reverse.dropWhile isPySpace).length
          = l.reverse.length := by
        simpa using congrArg List.length h2
      exact List.eq_nil_of_length_eq_zero (by omega)
    simp [rstrip, this]

theorem rstrip_append_all {a b : List Char} (h : ∀ x ∈ b, isPySpace x = true) :
    rstrip (a ++ b) = rstrip a := by
  unfold rstrip
  rw [List.reverse_append, dropWhile_append_all _
    fun x hx => h x (List.mem_reverse.mp hx)]

theorem rstrip_append_ne_nil {a b : List Char} (h : rstrip b ≠ []) :
    rstrip (a ++ b) = a ++ rstrip b := by
  have hb : b.reverse.dropWhile isPySpace ≠ [] := by
    intro hh; exact h (by simp [rstrip, hh])
  unfold rstrip
  rw [List.reverse_append, dropWhile_append_ne_nil _ hb, List.reverse_append,
    List.reverse_reverse]

theorem rstrip_all_nonspace {l : List Char} (h : ∀ x ∈ l, isPySpace x = false) :
    rstrip l = l := by
  unfold rstrip
  rw [dropWhile_all_neg fun x hx => h x (List.mem_reverse.mp hx),
    List.reverse_reverse]

theorem rstrip_cons_nonspace {c : Char} {l : List Char} (h : isPySpace c = false) :
    rstrip (c :: l) = c :: rstrip l := by
  by_cases hl : rstrip l = []
  · have hall : ∀ x ∈ l, isPySpace x = true := rstrip_eq_nil_iff.mp hl
    have : rstrip (c :: l) = rstrip [c] := by
      have := @rstrip_append_all [c] l hall
      simpa using this
    rw [this, hl]
    unfold rstrip
    simp [List.dropWhile, h]
  · have := @rstrip_append_ne_nil [c] l hl
    simpa using this

theorem rstrip_head {l : List Char} (h : rstrip l ≠ []) :
    (rstrip l).head? = l.head? := by
  cases l with
  | nil => simp [rstrip_nil] at h
  | cons c t =>
    by_cases hc : isPySpace c
    · by_cases ht : rstrip t = []
      · exfalso
        apply h
        rw [rstrip_eq_nil_iff]
        intro x hx
        rcases List.mem_cons.mp hx with rfl | hx
        · exact hc
        · exact rstrip_eq_nil_iff.mp ht x hx
      · have := @rstrip_append_ne_nil [c] t ht
        simp only [List.singleton_append] at this
        rw [this]
        simp
    · rw [rstrip_cons_nonspace (by simp [hc])]
      simp

theorem pyStrip_cons_nonspace {c : Char} {l : List Char} (h : isPySpace c = false) :
    pyStrip (c :: l) = c :: rstrip l := by
  unfold pyStrip
  rw [List.dropWhile_cons_of_neg (by simp [h]), rstrip_cons_nonspace h]

theorem pyStrip_all_nonspace {l : List Char} (h : ∀ x ∈ l, isPySpace x = false) :
    pyStrip l = l := by
  unfold pyStrip
  rw [dropWhile_all_neg h, rstrip_all_nonspace h]

/-! ## Marker and match-prefix facts -/

theorem markerAt_cons_ne {c : Char} {l : List Char} (h : c ≠ 'Q') :
    markerAt (c :: l) = false := by
  simp [markerAt, h]

theorem markerCount_append_nonQ :
    ∀ {xs : List Char} (ys : List Char), (∀ x ∈ xs, x ≠ 'Q') →
      markerCount (xs ++ ys) = markerCount ys := by
  intro xs
  induction xs with
  | nil => intro ys _; rfl
  | cons x xs ih =>
    intro ys h
    rw [List.cons_append]
    show (if markerAt (x :: (xs ++ ys)) then 1 else 0) + markerCount (xs ++ ys)
      = markerCount ys
    rw [markerAt_cons_ne (h x (List.mem_cons_self ..)),
      ih ys fun a ha => h a (List.mem_cons_of_mem _ ha)]
    simp

theorem markerCount_cons_true {c : Char} {l : List Char}
    (h : markerAt (c :: l) = true) :
    markerCount (c :: l) = 1 + markerCount l := by
  show (if markerAt (c :: l) then 1 else 0) + markerCount l = 1 + markerCount l
  rw [h]
  simp

theorem matchHead_markerAt {cs pre ds after} :
    matchHead cs = some (pre, ds, after) → markerAt cs = true := by
  intro h
  cases cs with
  | nil => simp [matchHead] at h
  | cons c rest =>
    by_cases hc : c = 'Q'
    · subst hc
      simp only [matchHead, eq_self_iff_true, if_true] at h
      by_cases hd : ((rest.dropWhile isPySpace).takeWhile isAsciiDigit).isEmpty
      · rw [if_pos hd] at h; cases h
      · cases hr : rest.dropWhile isPySpace with
        | nil =>
          rw [hr] at hd
          simp at hd
        | cons d t =>
          by_cases hdd : isAsciiDigit d
          · simp [markerAt, hr, hdd]
          · rw [hr, takeWhile_nil_of_head_neg (by simpa using hdd)] at hd
            simp at hd
    · simp [matchHead, hc] at h

theorem markerAt_matchHead {cs : List Char} (h : markerAt cs = true) :
    (matchHead cs).isSome = true := by
  cases cs with
  | nil => simp [markerAt] at h
  | cons c rest =>
    have hc : c = 'Q' := by
      by_contra hne
      rw [markerAt_cons_ne hne] at h
      cases h
    subst hc
    cases hr : rest.dropWhile isPySpace with
    | nil => rw [markerAt, hr] at h; simp at h
    | cons d t =>
      have hd : isAsciiDigit d = true := by
        rw [markerAt, hr] at h
        simpa using h
      simp only [matchHead, eq_self_iff_true, if_true]
      rw [hr, List.takeWhile_cons_of_pos hd]
      simp

/-- The structural content of one regex match: group 1 is the marker header
(`Q`, whitespace, the captured digits, whitespace) followed by the lazily
matched body, and when the header's trailing whitespace is empty the body
cannot begin with a digit (the digit capture was greedy). -/
def SpanStruct (span ds : List Char) : Prop :=
  ∃ ws1 ws2 body, span = 'Q' :: (ws1 ++ (ds ++ (ws2 ++ body))) ∧
    (∀ x ∈ ws1, isPySpace x = true) ∧ (∀ x ∈ ws2, isPySpace x = true) ∧
    ds ≠ [] ∧ (∀ x ∈ ds, isAsciiDigit x = true) ∧
    (ws2 = [] → body = [] ∨ ∃ c t, body = c :: t ∧ isAsciiDigit c = false)

theorem matchHead_struct {cs pre ds after} (h : matchHead cs = some (pre, ds, after)) :
    cs = pre ++ after ∧
    ∃ ws1 ws2, pre = 'Q' :: (ws1 ++ (ds ++ ws2)) ∧
      (∀ x ∈ ws1, isPySpace x = true) ∧ (∀ x ∈ ws2, isPySpace x = true) ∧
      ds ≠ [] ∧ (∀ x ∈ ds, isAsciiDigit x = true) ∧
      (ws2 = [] → after = [] ∨ ∃ c t, after = c :: t ∧ isAsciiDigit c = false) := by
  cases cs with
  | nil => simp [matchHead] at h
  | cons c rest =>
    by_cases hc : c = 'Q'
    · subst hc
      simp only [matchHead, eq_self_iff_true, if_true] at h
      by_cases hd : ((rest.dropWhile isPySpace).takeWhile isAsciiDigit).isEmpty
      · rw [if_pos hd] at h; cases h
      · rw [if_neg hd] at h
        simp only [Option.some.injEq, Prod.mk.injEq] at h
        obtain ⟨h1, h2, h3⟩ := h
        subst h1; subst h2; subst h3
        constructor
        · rw [List.cons_append, List.append_assoc, List.append_assoc]
          congr 1
          rw [List.takeWhile_append_dropWhile, List.takeWhile_append_dropWhile,
            List.takeWhile_append_dropWhile]
        · refine ⟨_, _, by rw [List.append_assoc], ?_, ?_, ?_, ?_, ?_⟩
          · intro x hx; exact List.mem_takeWhile_imp hx
          · intro x hx; exact List.mem_takeWhile_imp hx
          · simpa [List.isEmpty_iff] using hd
          · intro x hx; exact List.mem_takeWhile_imp hx
          · intro hws2
            have heq := dropWhile_eq_self_of_takeWhile_nil hws2
            cases hr2 : (rest.dropWhile isPySpace).dropWhile isAsciiDigit with
            | nil => left; rfl
            | cons d t =>
              right
              refine ⟨d, t, ?_, dropWhile_head_false hr2⟩
              rw [hr2] at heq
              exact heq
    · simp [matchHead, hc] at h

/-! ## scanBody and skipToMarker facts -/

theorem scanBody_split : ∀ cs : List Char, (scanBody cs).1 ++ (scanBody cs).2 = cs := by
  intro cs
  induction cs with
  | nil => rfl
  | cons c rest ih =>
    show (scanBody (c :: rest)).1 ++ (scanBody (c :: rest)).2 = c :: rest
    rw [scanBody]
    by_cases h : markerAt (c :: rest)
    · rw [if_pos h]
      rfl
    · rw [if_neg h]
      simpa using ih

theorem scanBody_rest : ∀ cs : List Char,
    (scanBody cs).2 = [] ∨ markerAt (scanBody cs).2 = true := by
  intro cs
  induction cs with
  | nil => left; rfl
  | cons c rest ih =>
    rw [scanBody]
    by_cases h : markerAt (c :: rest)
    · right; simpa [if_pos h] using h
    · rw [if_neg h]; simpa using ih

theorem scanBody_count : ∀ cs : List Char,
    markerCount cs = markerCount (scanBody cs).2 := by
  intro cs
  induction cs with
  | nil => rfl
  | cons c rest ih =>
    rw [scanBody]
    by_cases h : markerAt (c :: rest)
    · rw [if_pos h]
    · rw [if_neg h]
      show (if markerAt (c :: rest) then 1 else 0) + markerCount rest = _
      rw [if_neg (by simp [h]), ih]
      simp

theorem scanBody_head : ∀ cs : List Char, (scanBody cs).1 ≠ [] →
    ((scanBody cs).1).head? = cs.head? := by
  intro cs
  cases cs with
  | nil => intro h; exact absurd rfl h
  | cons c rest =>
    intro h
    rw [scanBody]
    by_cases hm : markerAt (c :: rest)
    · rw [scanBody, if_pos hm] at h
      exact absurd rfl h
    · rw [if_neg hm]
      simp

theorem scanBody_len : ∀ cs : List Char, (scanBody cs).2.length ≤ cs.length := by
  intro cs
  have := congrArg List.length (scanBody_split cs)
  rw [List.length_append] at this
  omega

theorem skipToMarker_len : ∀ cs : List Char,
    (skipToMarker cs).length ≤ cs.length := by
  intro cs
  induction cs with
  | nil => exact Nat.le_refl _
  | cons c rest ih =>
    rw [skipToMarker]
    by_cases h : markerAt (c :: rest)
    · rw [if_pos h]
    · rw [if_neg h]
      simp only [List.length_cons]
      omega

theorem skipToMarker_count : ∀ cs : List Char,
    markerCount (skipToMarker cs) = markerCount cs := by
  intro cs
  induction cs with
  | nil => rfl
  | cons c rest ih =>
    rw [skipToMarker]
    by_cases h : markerAt (c :: rest)
    · rw [if_pos h]
    · rw [if_neg h, ih]
      show markerCount rest = (if markerAt (c :: rest) then 1 else 0) + markerCount rest
      rw [if_neg (by simp [h])]
      simp

theorem skipToMarker_spec : ∀ cs : List Char,
    skipToMarker cs = [] ∨ markerAt (skipToMarker cs) = true := by
  intro cs
  induction cs with
  | nil => left; rfl
  | cons c rest ih =>
    rw [skipToMarker]
    by_cases h : markerAt (c :: rest)
    · right; rw [if_pos h]; exact h
    · rw [if_neg h]; exact ih

theorem skipToMarker_of_markerAt {cs : List Char} (h : markerAt cs = true) :
    skipToMarker cs = cs := by
  cases cs with
  | nil => rfl
  | cons c rest => rw [skipToMarker, if_pos h]

/-! ## findMatches invariants -/

theorem after_len_lt {cs pre ds after : List Char}
    (h : matchHead (skipToMarker cs) = some (pre, ds, after)) :
    (scanBody after).2.length < cs.length := by
  obtain ⟨hsplit, ws1, ws2, hpre, -⟩ := matchHead_struct h
  have h1 : (skipToMarker cs).length = pre.length + after.length := by
    rw [hsplit, List.length_append]
  have h2 : 0 < pre.length := by rw [hpre]; simp
  have h3 := skipToMarker_len cs
  have h4 := scanBody_len after
  omega

theorem markerCount_skip_some {cs pre ds after : List Char}
    (h : matchHead (skipToMarker cs) = some (pre, ds, after)) :
    markerCount cs = 1 + markerCount (scanBody after).2 := by
  obtain ⟨hsplit, ws1, ws2, hpre, hws1, hws2, hds, hdig, -⟩ := matchHead_struct h
  have hmk : markerAt (skipToMarker cs) = true := matchHead_markerAt h
  have hform : skipToMarker cs = 'Q' :: (ws1 ++ (ds ++ (ws2 ++ after))) := by
    rw [hsplit, hpre]
    simp [List.append_assoc]
  rw [← skipToMarker_count cs, hform]
  rw [hform] at hmk
  rw [markerCount_cons_true hmk]
  rw [markerCount_append_nonQ _ fun x hx => pySpace_ne_Q (hws1 x hx),
    markerCount_append_nonQ _ fun x hx => digit_ne_Q (hdig x hx),
    markerCount_append_nonQ _ fun x hx => pySpace_ne_Q (hws2 x hx),
    scanBody_count after]

theorem findMatchesF_length :
    ∀ fuel (cs : List Char), cs.length < fuel →
      (findMatchesF fuel cs).length = markerCount cs := by
  intro fuel
  induction fuel with
  | zero => intro cs h; omega
  | succ fuel ih =>
    intro cs hlen
    rw [findMatchesF]
    cases hm : matchHead (skipToMarker cs) with
    | none =>
      rcases skipToMarker_spec cs with hnil | hmk
      · have h0 : markerCount cs = 0 := by
          rw [← skipToMarker_count cs, hnil]
          rfl
        rw [h0]
        rfl
      · have := markerAt_matchHead hmk
        rw [hm] at this
        cases this
    | some m =>
      obtain ⟨preX, dsX, afterX⟩ := m
      have hrec := ih (scanBody afterX).2 (by have := after_len_lt hm; omega)
      rw [markerCount_skip_some hm]
      simp only [List.length_cons, hrec]
      omega

theorem findMatchesF_join :
    ∀ fuel (cs : List Char), cs.length < fuel →
      spansJoin (findMatchesF fuel cs) = skipToMarker cs := by
  intro fuel
  induction fuel with
  | zero => intro cs h; omega
  | succ fuel ih =>
    intro cs hlen
    rw [findMatchesF]
    cases hm : matchHead (skipToMarker cs) with
    | none =>
      rcases skipToMarker_spec cs with hnil | hmk
      · rw [hnil]
        rfl
      · have := markerAt_matchHead hmk
        rw [hm] at this
        cases this
    | some m =>
      obtain ⟨preX, dsX, afterX⟩ := m
      obtain ⟨hsplit, -⟩ := matchHead_struct hm
      have hrec := ih (scanBody afterX).2 (by have := after_len_lt hm; omega)
      show (preX ++ (scanBody afterX).1) ++ spansJoin (findMatchesF fuel (scanBody afterX).2)
          = skipToMarker cs
      rw [hrec]
      have hskiprest : skipToMarker (scanBody afterX).2 = (scanBody afterX).2 := by
        rcases scanBody_rest afterX with hnil | hmk2
        · rw [hnil]
          rfl
        · exact skipToMarker_of_markerAt hmk2
      rw [hskiprest, List.append_assoc, scanBody_split afterX, ← hsplit]

theorem findMatchesF_struct :
    ∀ fuel (cs : List Char), cs.length < fuel →
      ∀ m ∈ findMatchesF fuel cs, SpanStruct m.1 m.2 := by
  intro fuel
  induction fuel with
  | zero => intro cs h; omega
  | succ fuel ih =>
    intro cs hlen m hm
    rw [findMatchesF] at hm
    cases hmh : matchHead (skipToMarker cs) with
    | none => rw [hmh] at hm; cases hm
    | some mm =>
      obtain ⟨preX, dsX, afterX⟩ := mm
      rw [hmh] at hm
      rcases List.mem_cons.mp hm with rfl | hm3
      · obtain ⟨hsplit, ws1, ws2, hpre, hws1, hws2, hds, hdig, hafter⟩ :=
          matchHead_struct hmh
        refine ⟨ws1, ws2, (scanBody afterX).1, ?_, hws1, hws2, hds, hdig, ?_⟩
        · show preX ++ (scanBody afterX).1 = _
          rw [hpre]
          simp [List.append_assoc]
        · intro hws2e
          cases hbody : (scanBody afterX).1 with
          | nil => left; rfl
          | cons b bt =>
            right
            have hne : (scanBody afterX).1 ≠ [] := by rw [hbody]; simp
            have hhead := scanBody_head afterX hne
            rw [hbody] at hhead
            rcases hafter hws2e with hae | ⟨c, t, hae, hcd⟩
            · rw [hae] at hhead
              simp at hhead
            · rw [hae] at hhead
              simp only [List.head?_cons, Option.some.injEq] at hhead
              refine ⟨b, bt, rfl, ?_⟩
              rw [hhead]
              exact hcd
      · exact ih (scanBody afterX).2 (by have := after_len_lt hmh; omega) m hm3

theorem findMatches_length (cs : List Char) :
    (findMatches cs).length = markerCount cs :=
  findMatchesF_length _ cs (Nat.lt_succ_self _)

theorem findMatches_join (cs : List Char) :
    spansJoin (findMatches cs) = skipToMarker cs :=
  findMatchesF_join _ cs (Nat.lt_succ_self _)

theorem findMatches_struct (cs : List Char) :
    ∀ m ∈ findMatches cs, SpanStruct m.1 m.2 :=
  findMatchesF_struct _ cs (Nat.lt_succ_self _)

/-! ## The stripped span keeps its header -/

theorem dropWhile_ds_append {ds tail2 : List Char} (hds : ds ≠ [])
    (hdig : ∀ x ∈ ds, isAsciiDigit x = true) :
    (ds ++ tail2).dropWhile isPySpace = ds ++ tail2 := by
  cases ds with
  | nil => exact absurd rfl hds
  | cons d ds' =>
    have hdw : isPySpace d = false :=
      digit_not_pySpace (hdig d (List.mem_cons_self ..))
    rw [List.cons_append, List.dropWhile_cons_of_neg (by simp [hdw])]

theorem takeWhile_ds_append {ds tail2 : List Char}
    (hdig : ∀ x ∈ ds, isAsciiDigit x = true)
    (htail : ∀ c, tail2.head? = some c → isAsciiDigit c = false) :
    (ds ++ tail2).takeWhile isAsciiDigit = ds := by
  rw [takeWhile_append_all _ hdig]
  cases ht2 : tail2 with
  | nil => simp
  | cons c t =>
    rw [takeWhile_nil_of_head_neg (htail c (by rw [ht2]; rfl))]
    simp

theorem header_core {ws1 ds tail2 : List Char}
    (hws1 : ∀ x ∈ ws1, isPySpace x = true)
    (hds : ds ≠ []) (hdig : ∀ x ∈ ds, isAsciiDigit x = true)
    (htail : ∀ c, tail2.head? = some c → isAsciiDigit c = false) :
    extractHeaderDigits ('Q' :: (ws1 ++ (ds ++ tail2))) = some ds ∧
    markerAt ('Q' :: (ws1 ++ (ds ++ tail2))) = true := by
  have hdrop : (ws1 ++ (ds ++ tail2)).dropWhile isPySpace = ds ++ tail2 := by
    rw [dropWhile_append_all _ hws1, dropWhile_ds_append hds hdig]
  constructor
  · simp only [extractHeaderDigits, eq_self_iff_true, if_true]
    rw [hdrop, takeWhile_ds_append hdig htail]
    simp [List.isEmpty_iff, hds]
  · rw [markerAt, hdrop]
    cases hd : ds with
    | nil => exact absurd hd hds
    | cons d ds' =>
      have : isAsciiDigit d = true := hdig d (by rw [hd]; exact List.mem_cons_self ..)
      simp [this]

/-- What survives `strip()` of a matched span: the head marker stays intact,
the captured digits are exactly the digit run after the `Q`, and the digits
are untouched by their own `strip()`. -/
theorem spanStruct_strip {span ds : List Char} (h : SpanStruct span ds) :
    pyStrip ds = ds ∧ pyStrip span ≠ [] ∧
    extractHeaderDigits (pyStrip span) = some ds ∧
    markerAt (pyStrip span) = true ∧
    ds ≠ [] ∧ (∀ x ∈ ds, isAsciiDigit x = true) := by
  obtain ⟨ws1, ws2, body, hspan, hws1, hws2, hds, hdig, hbody⟩ := h
  have hdnw : ∀ x ∈ ds, isPySpace x = false :=
    fun x hx => digit_not_pySpace (hdig x hx)
  have hstripds : pyStrip ds = ds := pyStrip_all_nonspace hdnw
  have hQ : isPySpace 'Q' = false := by decide
  have hps : pyStrip span = 'Q' :: rstrip (ws1 ++ (ds ++ (ws2 ++ body))) := by
    rw [hspan]
    exact pyStrip_cons_nonspace hQ
  by_cases hu : rstrip (ws2 ++ body) = []
  · have hall : ∀ x ∈ ws2 ++ body, isPySpace x = true := rstrip_eq_nil_iff.mp hu
    have hrds : rstrip ds = ds := rstrip_all_nonspace hdnw
    have h1 : rstrip (ws1 ++ (ds ++ (ws2 ++ body))) = ws1 ++ (ds ++ []) := by
      have e1 : ws1 ++ (ds ++ (ws2 ++ body)) = (ws1 ++ ds) ++ (ws2 ++ body) := by
        rw [List.append_assoc]
      rw [e1, rstrip_append_all hall, rstrip_append_ne_nil (by rw [hrds]; exact hds),
        hrds, List.append_nil]
    have hcore := @header_core ws1 ds [] hws1 hds hdig (by intro c hc; cases hc)
    rw [hps, h1]
    exact ⟨hstripds, by simp, hcore.1, hcore.2, hds, hdig⟩
  · have h1 : rstrip (ws1 ++ (ds ++ (ws2 ++ body)))
        = ws1 ++ (ds ++ rstrip (ws2 ++ body)) := by
      have hne2 : rstrip (ds ++ (ws2 ++ body)) ≠ [] := by
        rw [rstrip_append_ne_nil hu]
        simp [hds]
      rw [rstrip_append_ne_nil hne2, rstrip_append_ne_nil hu]
    have htail : ∀ c, (rstrip (ws2 ++ body)).head? = some c → isAsciiDigit c = false := by
      intro c hc
      have hhu := rstrip_head hu
      rw [hc] at hhu
      cases hw2 : ws2 with
      | cons w ws2' =>
        rw [hw2] at hhu
        simp only [List.cons_append, List.head?_cons, Option.some.injEq] at hhu
        rw [hhu]
        exact pySpace_not_digit (hws2 w (by rw [hw2]; exact List.mem_cons_self ..))
      | nil =>
        rcases hbody hw2 with hb | ⟨b, bt, hb, hbd⟩
        · exfalso
          apply hu
          rw [hw2, hb]
          rfl
        · rw [hw2, hb] at hhu
          simp only [List.nil_append, List.head?_cons, Option.some.injEq] at hhu
          rw [hhu]
          exact hbd
    have hcore := header_core hws1 hds hdig htail
    rw [hps, h1]
    exact ⟨hstripds, by simp, hcore.1, hcore.2, hds, hdig⟩

/-! ## The parse keeps every match -/

theorem filterMap_keep {α β : Type} (f : α → Option β) (g : α → β) :
    ∀ ms : List α, (∀ m ∈ ms, f m = some (g m)) → ms.filterMap f = ms.map g := by
  intro ms
  induction ms with
  | nil => intro _; rfl
  | cons m ms ih =>
    intro h
    rw [List.filterMap_cons, h m (List.mem_cons_self ..), List.map_cons,
      ih fun a ha => h a (List.mem_cons_of_mem _ ha)]

theorem parse_eq_map (t : String) :
    parse_mcqs_from_text t = (findMatches t.toList).map
      (fun m => ⟨String.mk (pyStrip m.2), String.mk (pyStrip m.1)⟩) := by
  unfold parse_mcqs_from_text
  apply filterMap_keep
  intro m hm
  have hs := spanStruct_strip (findMatches_struct t.toList m hm)
  have hne : (pyStrip m.1).isEmpty = false := by
    rcases hp : pyStrip m.1 with _ | ⟨c, l⟩
    · exact absurd hp hs.2.1
    · rfl
  simp only [hne]
  rfl

/-! ## Audit-loop runs -/

theorem callIndices_fullTrace : ∀ (qs : List ParsedQuestion) (idx : Nat),
    callIndices (fullTrace idx qs) = List.range' idx qs.length := by
  intro qs
  induction qs with
  | nil => intro idx; rfl
  | cons q rest ih =>
    intro idx
    rw [fullTrace]
    show idx :: callIndices (fullTrace (idx + 1) rest) = _
    rw [ih (idx + 1), List.length_cons]
    rfl

theorem callCount_fullTrace : ∀ (qs : List ParsedQuestion) (idx : Nat),
    callCount (fullTrace idx qs) = qs.length := by
  intro qs
  induction qs with
  | nil => intro idx; rfl
  | cons q rest ih =>
    intro idx
    rw [fullTrace]
    show callCount (fullTrace (idx + 1) rest) + 1 = rest.length + 1
    rw [ih (idx + 1)]

theorem sleepCount_fullTrace : ∀ (qs : List ParsedQuestion) (idx : Nat),
    sleepCount (fullTrace idx qs) = qs.length := by
  intro qs
  induction qs with
  | nil => intro idx; rfl
  | cons q rest ih =>
    intro idx
    rw [fullTrace]
    show sleepCount (fullTrace (idx + 1) rest) + 1 = rest.length + 1
    rw [ih (idx + 1)]

theorem auditLoop_ok_general (stub : Nat → OracleResult) (v : Nat → Verdict) :
    ∀ (qs : List ParsedQuestion) (idx : Nat),
      (∀ k, k < qs.length → stub (idx + k) = .ok (v (idx + k))) →
      auditLoop stub idx qs
        = (some ((List.range qs.length).map fun k => v (idx + k)), fullTrace idx qs) := by
  intro qs
  induction qs with
  | nil => intro idx _; rfl
  | cons q rest ih =>
    intro idx h
    have h0 : stub idx = .ok (v idx) := by
      have := h 0 (by simp)
      simpa using this
    have hrest : ∀ k, k < rest.length → stub (idx + 1 + k) = .ok (v (idx + 1 + k)) := by
      intro k hk
      have := h (k + 1) (by simpa using Nat.succ_lt_succ hk)
      have he : idx + (k + 1) = idx + 1 + k := by omega
      rwa [he] at this
    rw [auditLoop, h0, ih (idx + 1) hrest]
    rw [List.length_cons, List.range_succ_eq_map, List.map_cons, List.map_map]
    show (some (v (idx + 0) :: List.map _ (List.range rest.length)),
        .call idx q.full_text :: .sleep 5 :: fullTrace (idx + 1) rest) = _
    rw [fullTrace]
    have hf : ((fun k => v (idx + k)) ∘ Nat.succ) = fun k => v (idx + 1 + k) := by
      funext k
      show v (idx + (k + 1)) = v (idx + 1 + k)
      congr 1
      omega
    rw [hf]

theorem auditLoop_fail_general (stub : Nat → OracleResult) (v : Nat → Verdict) :
    ∀ (qs : List ParsedQuestion) (idx j : Nat) (hj : j < qs.length) (z : Int),
      (∀ k, k < qs.length → k ≠ j → stub (idx + k) = .ok (v (idx + k))) →
      stub (idx + j) = .failed →
      pyIntExn (qs.get ⟨j, hj⟩).q_num_str = some z →
      auditLoop stub idx qs
        = (some ((List.range qs.length).map fun k =>
            if k = j then failVerdict z else v (idx + k)),
           fullTrace idx qs) := by
  intro qs
  induction qs with
  | nil => intro idx j hj; cases hj
  | cons q rest ih =>
    intro idx j hj z hok hfail hint
    cases j with
    | zero =>
      have h0 : stub idx = .failed := by simpa using hfail
      have hq : pyIntExn q.q_num_str = some z := hint
      have hrest : ∀ k, k < rest.length → stub (idx + 1 + k) = .ok (v (idx + 1 + k)) := by
        intro k hk
        have := hok (k + 1) (by simpa using Nat.succ_lt_succ hk) (Nat.succ_ne_zero k)
        have he : idx + (k + 1) = idx + 1 + k := by omega
        rwa [he] at this
      rw [auditLoop, h0, hq, auditLoop_ok_general stub v rest (idx + 1) hrest]
      rw [List.length_cons, List.range_succ_eq_map, List.map_cons, List.map_map]
      show (some (failVerdict z :: _),
          .call idx q.full_text :: .sleep 5 :: fullTrace (idx + 1) rest) = _
      rw [fullTrace]
      have hf : ((fun k => if k = 0 then failVerdict z else v (idx + k)) ∘ Nat.succ)
          = fun k => v (idx + 1 + k) := by
        funext k
        show (if k + 1 = 0 then failVerdict z else v (idx + (k + 1))) = v (idx + 1 + k)
        rw [if_neg (Nat.succ_ne_zero k)]
        congr 1
        omega
      rw [hf]
      norm_num
    | succ j' =>
      have hj' : j' < rest.length := by simpa using Nat.lt_of_succ_lt_succ hj
      have h0 : stub idx = .ok (v idx) := by
        have := hok 0 (by simp) (by omega)
        simpa using this
      have hrest : ∀ k, k < rest.length → k ≠ j' → stub (idx + 1 + k) = .ok (v (idx + 1 + k)) := by
        intro k hk hkj
        have := hok (k + 1) (by simpa using Nat.succ_lt_succ hk)
          (by intro hh; exact hkj (Nat.succ_injective hh))
        have he : idx + (k + 1) = idx + 1 + k := by omega
        rwa [he] at this
      have hfail' : stub (idx + 1 + j') = .failed := by
        have he : idx + (j' + 1) = idx + 1 + j' := by omega
        rwa [he] at hfail
      have hint' : pyIntExn (rest.get ⟨j', hj'⟩).q_num_str = some z := hint
      rw [auditLoop, h0, ih (idx + 1) j' hj' z hrest hfail' hint']
      rw [List.length_cons, List.range_succ_eq_map, List.map_cons, List.map_map]
      show (some ((if 0 = j' + 1 then failVerdict z else v (idx + 0)) :: _),
          .call idx q.full_text :: .sleep 5 :: fullTrace (idx + 1) rest) = _
      rw [fullTrace, if_neg (by omega)]
      have hf : ((fun k => if k = j' + 1 then failVerdict z else v (idx + k)) ∘ Nat.succ)
          = fun k => if k = j' then failVerdict z else v (idx + 1 + k) := by
        funext k
        show (if k + 1 = j' + 1 then failVerdict z else v (idx + (k + 1)))
          = if k = j' then failVerdict z else v (idx + 1 + k)
        by_cases hkj : k = j'
        · rw [if_pos (by omega), if_pos hkj]
        · rw [if_neg (by omega), if_neg hkj]
          congr 1
          omega
      rw [hf]

theorem auditLoop_rl_general (stub : Nat → OracleResult) (v : Nat → Verdict) :
    ∀ (qs : List ParsedQuestion) (idx i : Nat) (hi : i < qs.length) (z : Int),
      (∀ k, k < i → stub (idx + k) = .ok (v (idx + k))) →
      stub (idx + i) = .rateLimited →
      pyIntExn (qs.get ⟨i, hi⟩).q_num_str = some z →
      auditLoop stub idx qs
        = (some (((List.range i).map fun k => v (idx + k)) ++ [rlVerdict z]),
           fullTrace idx (qs.take i)
             ++ [.call (idx + i) (qs.get ⟨i, hi⟩).full_text]) := by
  intro qs
  induction qs with
  | nil => intro idx i hi; cases hi
  | cons q rest ih =>
    intro idx i hi z hok hrl hint
    cases i with
    | zero =>
      have h0 : stub idx = .rateLimited := by simpa using hrl
      have hq : pyIntExn q.q_num_str = some z := hint
      rw [auditLoop, h0, hq]
      rfl
    | succ i' =>
      have hi' : i' < rest.length := by simpa using Nat.lt_of_succ_lt_succ hi
      have h0 : stub idx = .ok (v idx) := by
        have := hok 0 (by omega)
        simpa using this
      have hok' : ∀ k, k < i' → stub (idx + 1 + k) = .ok (v (idx + 1 + k)) := by
        intro k hk
        have := hok (k + 1) (by omega)
        have he : idx + (k + 1) = idx + 1 + k := by omega
        rwa [he] at this
      have hrl' : stub (idx + 1 + i') = .rateLimited := by
        have he : idx + (i' + 1) = idx + 1 + i' := by omega
        rwa [he] at hrl
      have hint' : pyIntExn (rest.get ⟨i', hi'⟩).q_num_str = some z := hint
      rw [auditLoop, h0, ih (idx + 1) i' hi' z hok' hrl' hint']
      rw [List.range_succ_eq_map, List.map_cons, List.map_map]
      show (some ((v (idx + 0) :: _) ++ [rlVerdict z]),
          .call idx q.full_text :: .sleep 5
            :: (fullTrace (idx + 1) (rest.take i')
              ++ [.call (idx + 1 + i') (rest.get ⟨i', hi'⟩).full_text])) = _
      have hf : ((fun k => v (idx + k)) ∘ Nat.succ) = fun k => v (idx + 1 + k) := by
        funext k
        show v (idx + (k + 1)) = v (idx + 1 + k)
        congr 1
        omega
      have hidx : idx + 1 + i' = idx + (i' + 1) := by omega
      rw [hf, hidx]
      rfl

theorem throttleOk_auditLoop (stub : Nat → OracleResult) :
    ∀ (qs : List ParsedQuestion) (idx : Nat),
      throttleOk (auditLoop stub idx qs).2 = true := by
  intro qs
  induction qs with
  | nil => intro idx; rfl
  | cons q rest ih =>
    intro idx
    rw [auditLoop]
    cases hs : stub idx with
    | rateLimited =>
      cases hp : pyIntExn q.q_num_str with
      | none => rfl
      | some n => rfl
    | ok v =>
      show throttleOk (.call idx q.full_text :: .sleep 5
          :: (auditLoop stub (idx + 1) rest).2) = true
      rw [throttleOk]
      exact ih (idx + 1)
    | failed =>
      cases hp : pyIntExn q.q_num_str with
      | none => rfl
      | some n =>
        show throttleOk (.call idx q.full_text :: .sleep 5
            :: (auditLoop stub (idx + 1) rest).2) = true
        rw [throttleOk]
        exact ih (idx + 1)

/-- Reduction of the endpoint through a successful pipeline: a truthy key, a
parsed id, a fetched non-empty text, and a non-empty segmentation reach the
audit loop. -/
theorem audit_document_run {apiKey : Option String} {docUrl : String}
    {fetch : String → Option String} (stub : Nat → OracleResult)
    {d : List Char} {txt : String} {qs : List ParsedQuestion}
    (hk : pyTruthyOpt apiKey = true)
    (hd : extract_doc_id docUrl.toList = some d)
    (hf : fetch (String.mk d) = some txt)
    (ht : txt ≠ "")
    (hq : parse_mcqs_from_text txt = qs)
    (hne : qs ≠ []) :
    audit_document apiKey docUrl fetch stub
      = (match auditLoop stub 1 qs with
         | (some report, es) => (.ok report, es)
         | (none, es) => (.crashed, es)) := by
  unfold audit_document
  have htr : pyTruthyOpt (some txt) = true := by
    simp [pyTruthyOpt]
    intro hh
    exact ht hh
  have hqe : qs.isEmpty = false := by
    cases qs with
    | nil => exact absurd rfl hne
    | cons a l => rfl
  simp only [hk, hd, hf, htr, hq, hqe, Bool.not_true, Bool.false_eq_true,
    if_false]

/-! ## Small bridging lemmas -/

theorem toList_mk (l : List Char) : (String.mk l).toList = l := rfl

theorem callIndices_append : ∀ a b : List Event,
    callIndices (a ++ b) = callIndices a ++ callIndices b := by
  intro a
  induction a with
  | nil => intro b; rfl
  | cons e a ih =>
    intro b
    cases e with
    | call i s =>
      show i :: callIndices (a ++ b) = i :: (callIndices a ++ callIndices b)
      rw [ih]
    | sleep n =>
      show callIndices (a ++ b) = callIndices a ++ callIndices b
      rw [ih]

theorem range'_one_concat : ∀ (n s : Nat),
    List.range' s (n + 1) = List.range' s n ++ [s + n] := by
  intro n
  induction n with
  | zero => intro s; simp [List.range']
  | succ n ih =>
    intro s
    show s :: List.range' (s + 1) (n + 1) = (s :: List.range' (s + 1) n) ++ [s + (n + 1)]
    rw [ih (s + 1), List.cons_append]
    have : s + 1 + n = s + (n + 1) := by omega
    rw [this]

/-! ## Claims -/

/-- C2: for every input text containing `N` occurrences of the question
marker (`Q`, optional whitespace, one-or-more digits), the segmenter
produces exactly `N` blocks; each block's raw text starts with a question
marker; and the matched spans partition the text from the first marker to
end-of-text without gaps or overlaps (their concatenation is exactly the
suffix of the text that begins at the first marker). -/
theorem C2_segmentation (t : String) :
    (parse_mcqs_from_text t).length = markerCount t.toList
    ∧ (∀ q, q ∈ parse_mcqs_from_text t → markerAt q.full_text.toList = true)
    ∧ spansJoin (findMatches t.toList) = skipToMarker t.toList := by
  refine ⟨?_, ?_, findMatches_join t.toList⟩
  · rw [parse_eq_map, List.length_map, findMatches_length]
  · intro q hq
    rw [parse_eq_map] at hq
    obtain ⟨m, hm, rfl⟩ := List.mem_map.mp hq
    have hs := spanStruct_strip (findMatches_struct t.toList m hm)
    show markerAt (String.mk (pyStrip m.1)).toList = true
    rw [toList_mk]
    exact hs.2.2.2.1

/-- C2 witness: the segmentation facts instantiated on a concrete text with
two markers. -/
theorem C2_segmentation_witness :
    (parse_mcqs_from_text "Q1 a Q2 b").length = markerCount "Q1 a Q2 b".toList
    ∧ markerCount "Q1 a Q2 b".toList = 2 := by
  refine ⟨(C2_segmentation "Q1 a Q2 b").1, by decide⟩

/-- C8: for every block the segmenter produces, the stored ordinal label is
exactly the digit run that follows the `Q` (after optional whitespace) at
the start of the block's raw text. -/
theorem C8_roundtrip (t : String) (q : ParsedQuestion)
    (hq : q ∈ parse_mcqs_from_text t) :
    extractHeaderDigits q.full_text.toList = some q.q_num_str.toList := by
  rw [parse_eq_map] at hq
  obtain ⟨m, hm, rfl⟩ := List.mem_map.mp hq
  have hs := spanStruct_strip (findMatches_struct t.toList m hm)
  show extractHeaderDigits (String.mk (pyStrip m.1)).toList
    = some (String.mk (pyStrip m.2)).toList
  rw [toList_mk, toList_mk, hs.1]
  exact hs.2.2.1

/-- C8 witness: the round-trip at a concrete block. -/
theorem C8_roundtrip_witness :
    extractHeaderDigits (String.toList "Q1 What is 2+2? A)4 B)2+2 C)5 D)6")
      = some ['1'] := by
  have h := C8_roundtrip "Q1 What is 2+2? A)4 B)2+2 C)5 D)6"
    ⟨"1", "Q1 What is 2+2? A)4 B)2+2 C)5 D)6"⟩ (by decide)
  simpa using h

/-- C10: every segmenter-produced block has a non-empty all-digit ordinal
label, so the `int(q_num_str)` conversions in the loop's synthesized-verdict
branches are total for such blocks. -/
theorem C10_label_safe (t : String) (q : ParsedQuestion)
    (hq : q ∈ parse_mcqs_from_text t) :
    q.q_num_str ≠ "" ∧ q.q_num_str.toList.all isAsciiDigit = true
    ∧ (pyIntExn q.q_num_str).isSome = true := by
  rw [parse_eq_map] at hq
  obtain ⟨m, hm, rfl⟩ := List.mem_map.mp hq
  have hs := spanStruct_strip (findMatches_struct t.toList m hm)
  obtain ⟨hstrip, -, -, -, hne, hdig⟩ := hs
  refine ⟨?_, ?_, ?_⟩
  · show String.mk (pyStrip m.2) ≠ ""
    intro hcon
    apply hne
    have := congrArg String.toList hcon
    rw [toList_mk] at this
    rw [← hstrip]
    exact this
  · show ((String.mk (pyStrip m.2)).toList.all isAsciiDigit) = true
    rw [toList_mk, hstrip]
    exact List.all_eq_true.mpr hdig
  · show (pyIntExn (String.mk (pyStrip m.2))).isSome = true
    unfold pyIntExn
    rw [show (String.mk (pyStrip m.2)).toList = pyStrip m.2 from rfl]
    have hss : pyStrip (pyStrip m.2) = pyStrip m.2 := by
      rw [hstrip]
      exact hstrip
    rw [hss, hstrip]
    obtain ⟨d, r, hdr⟩ := List.exists_cons_of_ne_nil hne
    have hd : isAsciiDigit d = true := hdig d (by rw [hdr]; exact List.mem_cons_self ..)
    have hr : ∀ x ∈ r, isAsciiDigit x = true :=
      fun x hx => hdig x (by rw [hdr]; exact List.mem_cons_of_mem _ hx)
    simp only [hdr]
    rw [if_neg (by intro hcon; rw [hcon] at hd; exact absurd hd (by decide)),
      if_neg (by intro hcon; rw [hcon] at hd; exact absurd hd (by decide)),
      if_pos (by simp [hd, List.all_eq_true.mpr hr])]
    rfl

/-- C10 witness: the label invariant at a concrete block. -/
theorem C10_label_safe_witness :
    ("1" : String) ≠ "" ∧ (pyIntExn "1").isSome = true := by
  have h := C10_label_safe "Q1 a" ⟨"1", "Q1 a"⟩ (by decide)
  exact ⟨h.1, h.2.2⟩

/-- C4: with a classifier stub returning a normal verdict on every call, the
loop calls the stub exactly once per block, in input order (call numbers
`1..K`, each call carrying that block's text, each followed by the throttle
sleep), and the report is exactly the stub's verdicts in call order, appended
verbatim — in particular the verdicts' own `Q_no` fields are whatever the
stub returned, never reconciled with the blocks' labels. -/
theorem C4_all_ok (stub : Nat → OracleResult) (v : Nat → Verdict)
    (qs : List ParsedQuestion)
    (h : ∀ k, 1 ≤ k → k ≤ qs.length → stub k = .ok (v k)) :
    auditLoop stub 1 qs
      = (some ((List.range qs.length).map fun k => v (k + 1)), fullTrace 1 qs)
    ∧ callIndices (auditLoop stub 1 qs).2 = List.range' 1 qs.length
    ∧ callCount (auditLoop stub 1 qs).2 = qs.length := by
  have hok : ∀ k, k < qs.length → stub (1 + k) = .ok (v (1 + k)) := by
    intro k hk
    exact h (1 + k) (by omega) (by omega)
  have hmain := auditLoop_ok_general stub v qs 1 hok
  have hfun : (fun k => v (1 + k)) = fun k => v (k + 1) := by
    funext k
    congr 1
    omega
  rw [hfun] at hmain
  refine ⟨hmain, ?_, ?_⟩
  · rw [hmain]
    exact callIndices_fullTrace qs 1
  · rw [hmain]
    exact callCount_fullTrace qs 1

/-- C4 witness: a two-block audit with an always-normal stub. -/
theorem C4_all_ok_witness :
    auditLoop (fun k => OracleResult.ok ⟨Int.ofNat k, "OK", none⟩) 1
        [⟨"1", "Q1 a"⟩, ⟨"2", "Q2 b"⟩]
      = (some [⟨1, "OK", none⟩, ⟨2, "OK", none⟩],
         [.call 1 "Q1 a", .sleep 5, .call 2 "Q2 b", .sleep 5]) := by
  have h := (C4_all_ok (fun k => OracleResult.ok ⟨Int.ofNat k, "OK", none⟩)
    (fun k => ⟨Int.ofNat k, "OK", none⟩) [⟨"1", "Q1 a"⟩, ⟨"2", "Q2 b"⟩]
    (by intro k h1 h2; rfl)).1
  rw [h]
  decide

/-- C3: with a classifier stub that fails (a non-rate-limit error: the call
returned `None` for an API or JSON failure) on call `j` only and is normal
elsewhere, the loop does not abort: the report has one entry per block, entry
`j` is the synthesized Inconclusive verdict with summary
"Failed to audit (API or JSON error)" and the parsed label as `Q_no`, every
other entry is the stub's verdict, and all `K` calls (each with its throttle
sleep) still happen.  A non-429 exception is exactly what
`run_mcq_audit_gemini` turns into this failure result. -/
theorem C3_failure_continues (stub : Nat → OracleResult) (v : Nat → Verdict)
    (qs : List ParsedQuestion) (j : Nat) (z : Int)
    (hj1 : 1 ≤ j) (hlt : j - 1 < qs.length)
    (hok : ∀ k, 1 ≤ k → k ≤ qs.length → k ≠ j → stub k = .ok (v k))
    (hfail : stub j = .failed)
    (hint : pyIntExn (qs.get ⟨j - 1, hlt⟩).q_num_str = some z) :
    auditLoop stub 1 qs
      = (some ((List.range qs.length).map fun k =>
          if k = j - 1 then failVerdict z else v (k + 1)),
         fullTrace 1 qs)
    ∧ callCount (auditLoop stub 1 qs).2 = qs.length
    ∧ ∀ msg : String, containsSub "429".toList msg.toList = false →
        run_mcq_audit_gemini (.exn msg) = .failed := by
  have hok' : ∀ k, k < qs.length → k ≠ j - 1 → stub (1 + k) = .ok (v (1 + k)) := by
    intro k hk hkj
    exact hok (1 + k) (by omega) (by omega) (by omega)
  have hfail' : stub (1 + (j - 1)) = .failed := by
    have he : 1 + (j - 1) = j := by omega
    rwa [he]
  have hmain := auditLoop_fail_general stub v qs 1 (j - 1) hlt z hok' hfail' hint
  have hfun : (fun k => if k = j - 1 then failVerdict z else v (1 + k))
      = fun k => if k = j - 1 then failVerdict z else v (k + 1) := by
    funext k
    by_cases hkj : k = j - 1
    · rw [if_pos hkj, if_pos hkj]
    · rw [if_neg hkj, if_neg hkj]
      congr 1
      omega
  rw [hfun] at hmain
  refine ⟨hmain, ?_, ?_⟩
  · rw [hmain]
    exact callCount_fullTrace qs 1
  · intro msg hmsg
    show (if containsSub "429".toList msg.toList = true then OracleResult.rateLimited
        else OracleResult.failed) = OracleResult.failed
    rw [hmsg]
    rfl

/-- C3 witness: a two-block audit failing on call 1 only. -/
theorem C3_failure_continues_witness :
    auditLoop (fun k => if k = 1 then .failed else OracleResult.ok ⟨2, "OK", none⟩) 1
        [⟨"1", "Q1 a"⟩, ⟨"2", "Q2 b"⟩]
      = (some [failVerdict 1, ⟨2, "OK", none⟩],
         [.call 1 "Q1 a", .sleep 5, .call 2 "Q2 b", .sleep 5]) := by
  have h := (C3_failure_continues
    (fun k => if k = 1 then .failed else OracleResult.ok ⟨2, "OK", none⟩)
    (fun _ => ⟨2, "OK", none⟩) [⟨"1", "Q1 a"⟩, ⟨"2", "Q2 b"⟩] 1 1
    (by decide) (by decide)
    (by
      intro k h1 h2 hk
      have h2' : k ≤ 2 := h2
      have : k = 2 := by omega
      rw [this]
      rfl)
    (by rfl) (by decide)).1
  rw [h]
  decide

/-- C1: with a classifier stub that signals the rate limit on call `i` and is
normal before it, the loop stops at call `i`: the report is the `i-1` stub
verdicts followed by the synthesized Inconclusive verdict with summary
"Failed: API Rate Limit hit." and the parsed label as `Q_no`; the calls made
are exactly `1..i` (none beyond `i`); and through the endpoint the partial
report comes back as the success response, not an error. -/
theorem C1_rate_limit (stub : Nat → OracleResult) (v : Nat → Verdict)
    (qs : List ParsedQuestion) (i : Nat) (z : Int)
    (hi1 : 1 ≤ i) (hlt : i - 1 < qs.length)
    (hok : ∀ j, 1 ≤ j → j < i → stub j = .ok (v j))
    (hrl : stub i = .rateLimited)
    (hint : pyIntExn (qs.get ⟨i - 1, hlt⟩).q_num_str = some z) :
    auditLoop stub 1 qs
      = (some (((List.range (i - 1)).map fun k => v (k + 1)) ++ [rlVerdict z]),
         fullTrace 1 (qs.take (i - 1))
           ++ [.call i (qs.get ⟨i - 1, hlt⟩).full_text])
    ∧ callIndices (auditLoop stub 1 qs).2 = List.range' 1 i
    ∧ ∀ (apiKey : Option String) (docUrl : String) (fetch : String → Option String)
        (d : List Char) (txt : String),
        pyTruthyOpt apiKey = true →
        extract_doc_id docUrl.toList = some d →
        fetch (String.mk d) = some txt → txt ≠ "" →
        parse_mcqs_from_text txt = qs →
        (audit_document apiKey docUrl fetch stub).1
          = .ok (((List.range (i - 1)).map fun k => v (k + 1)) ++ [rlVerdict z]) := by
  have hok' : ∀ k, k < i - 1 → stub (1 + k) = .ok (v (1 + k)) := by
    intro k hk
    exact hok (1 + k) (by omega) (by omega)
  have hrl' : stub (1 + (i - 1)) = .rateLimited := by
    have he : 1 + (i - 1) = i := by omega
    rwa [he]
  have hmain := auditLoop_rl_general stub v qs 1 (i - 1) hlt z hok' hrl' hint
  have hfun : (fun k => v (1 + k)) = fun k => v (k + 1) := by
    funext k
    congr 1
    omega
  rw [hfun] at hmain
  have hcall : .call (1 + (i - 1)) (qs.get ⟨i - 1, hlt⟩).full_text
      = Event.call i (qs.get ⟨i - 1, hlt⟩).full_text := by
    congr 1
    omega
  rw [hcall] at hmain
  refine ⟨hmain, ?_, ?_⟩
  · rw [hmain]
    rw [callIndices_append, callIndices_fullTrace]
    show List.range' 1 (qs.take (i - 1)).length ++ [i] = List.range' 1 i
    have hlen : (qs.take (i - 1)).length = i - 1 := by
      rw [List.length_take]
      omega
    rw [hlen]
    have := range'_one_concat (i - 1) 1
    have he2 : (i - 1) + 1 = i := by omega
    have he3 : 1 + (i - 1) = i := by omega
    rw [he2, he3] at this
    exact this.symm
  · intro apiKey docUrl fetch d txt hk hd hf ht hq
    have hne : qs ≠ [] := by
      intro hcon
      rw [hcon] at hlt
      cases hlt
    rw [audit_document_run stub hk hd hf ht hq hne]
    rw [hmain]

/-- C1 witness: a two-block audit rate-limited on call 2. -/
theorem C1_rate_limit_witness :
    auditLoop (fun k => if k = 1 then OracleResult.ok ⟨1, "OK", none⟩ else .rateLimited)
        1 [⟨"1", "Q1 a"⟩, ⟨"2", "Q2 b"⟩]
      = (some [⟨1, "OK", none⟩, rlVerdict 2],
         [.call 1 "Q1 a", .sleep 5, .call 2 "Q2 b"]) := by
  have h := (C1_rate_limit
    (fun k => if k = 1 then OracleResult.ok ⟨1, "OK", none⟩ else .rateLimited)
    (fun _ => ⟨1, "OK", none⟩) [⟨"1", "Q1 a"⟩, ⟨"2", "Q2 b"⟩] 2 2
    (by decide) (by decide)
    (by
      intro j h1 h2
      have : j = 1 := by omega
      rw [this]
      rfl)
    (by rfl) (by decide)).1
  rw [h]
  decide

/-- C5 counterexample: the claim that the five-unit pause follows every
processed block across all outcomes fails at a rate-limited call — the loop
returns the partial list before reaching the sleep, so the trace of a
one-block audit whose only call is rate-limited has a call with no pause
after it. -/
theorem C5_counterexample :
    strictThrottle
      (auditLoop (fun _ => OracleResult.rateLimited) 1 [⟨"1", "Q1 a"⟩]).2 = false := by
  decide

/-- C5 amended: the pause follows every block whose iteration completes —
every oracle call in a loop trace is immediately followed by a five-unit
sleep except a call that terminated the audit (a rate-limit abort, or the
uncaught label-conversion error) as the trace's last event; in particular a
run in which every call returns a normal verdict sleeps after every one of
its blocks, the last included. -/
theorem C5_throttle_amended :
    (∀ (stub : Nat → OracleResult) (idx : Nat) (qs : List ParsedQuestion),
      throttleOk (auditLoop stub idx qs).2 = true)
    ∧ ∀ (stub : Nat → OracleResult) (v : Nat → Verdict) (qs : List ParsedQuestion),
        (∀ k, k < qs.length → stub (1 + k) = .ok (v (1 + k))) →
        sleepCount (auditLoop stub 1 qs).2 = qs.length
        ∧ callCount (auditLoop stub 1 qs).2 = qs.length := by
  constructor
  · intro stub idx qs
    exact throttleOk_auditLoop stub qs idx
  · intro stub v qs h
    have hmain := auditLoop_ok_general stub v qs 1 h
    rw [hmain]
    exact ⟨sleepCount_fullTrace qs 1, callCount_fullTrace qs 1⟩

/-- C5 witness: the amended throttle shape at a concrete completed audit. -/
theorem C5_throttle_amended_witness :
    sleepCount (auditLoop (fun _ => OracleResult.ok ⟨1, "OK", none⟩) 1
        [⟨"1", "Q1 a"⟩]).2 = 1
    ∧ callCount (auditLoop (fun _ => OracleResult.ok ⟨1, "OK", none⟩) 1
        [⟨"1", "Q1 a"⟩]).2 = 1 := by
  have h := C5_throttle_amended.2 (fun _ => OracleResult.ok ⟨1, "OK", none⟩)
    (fun _ => ⟨1, "OK", none⟩) [⟨"1", "Q1 a"⟩] (by intro k hk; rfl)
  simpa using h

/-- C6: a text with zero question-marker occurrences segments to the empty
list, and the endpoint then answers the not-found error for missing question
blocks, with an empty event trace — the classifier is never invoked (the
response is the same for every stub). -/
theorem C6_no_questions (t : String) (hz : markerCount t.toList = 0) :
    parse_mcqs_from_text t = []
    ∧ ∀ (apiKey : Option String) (docUrl : String) (fetch : String → Option String)
        (stub : Nat → OracleResult) (d : List Char),
        pyTruthyOpt apiKey = true →
        extract_doc_id docUrl.toList = some d →
        fetch (String.mk d) = some t → t ≠ "" →
        audit_document apiKey docUrl fetch stub
          = (.httpError 404 "No valid question blocks (e.g., 'Q1') found.", []) := by
  have hp : parse_mcqs_from_text t = [] := by
    apply List.eq_nil_of_length_eq_zero
    rw [parse_eq_map, List.length_map, findMatches_length]
    exact hz
  refine ⟨hp, ?_⟩
  intro apiKey docUrl fetch stub d hk hd hf ht
  unfold audit_document
  have htr : pyTruthyOpt (some t) = true := by
    simp [pyTruthyOpt]
    intro hh
    exact ht hh
  simp only [hk, hd, hf, htr, hp, Bool.not_true, Bool.false_eq_true, if_false]
  rfl

/-- C6 witness: a concrete marker-free text. -/
theorem C6_no_questions_witness :
    parse_mcqs_from_text "hello world" = []
    ∧ audit_document (some "k") "https://docs.google.com/document/d/abc/edit"
        (fun _ => some "hello world") (fun _ => OracleResult.failed)
      = (.httpError 404 "No valid question blocks (e.g., 'Q1') found.", []) := by
  have h := C6_no_questions "hello world" (by decide)
  exact ⟨h.1, h.2 (some "k") "https://docs.google.com/document/d/abc/edit"
    (fun _ => some "hello world") (fun _ => OracleResult.failed) "abc".toList
    (by decide) (by decide) (by decide) (by decide)⟩

/-- C7 counterexample: with the credential absent, module initialization does
not raise — the falsy branch only prints, so the process does not fail fast
before request handling; a request is in fact handled (and answered with the
500 configuration error). -/
theorem C7_counterexample :
    ¬ (startup_raises none = true)
    ∧ (audit_document none "https://docs.google.com/document/d/abc/edit"
        (fun _ => some "Q1 a") (fun _ => OracleResult.failed)).1
      = .httpError 500 "Server is missing GOOGLE_API_KEY" := by
  constructor
  · decide
  · rfl

/-- C7 amended: an absent credential does not stop startup (initialization
only logs the fatal-error message and never raises); every request is then
answered with the 500 "Server is missing GOOGLE_API_KEY" error before any
work — the response is the same for every URL, fetcher and classifier stub,
and the event trace is empty. -/
theorem C7_config_amended (docUrl : String) (fetch : String → Option String)
    (stub : Nat → OracleResult) :
    startup_raises none = false
    ∧ audit_document none docUrl fetch stub
      = (.httpError 500 "Server is missing GOOGLE_API_KEY", []) := by
  constructor
  · rfl
  · unfold audit_document
    rfl

/-- C9: a fetch that succeeds with HTTP 200 but an empty body is returned by
`get_google_doc_text` as the empty string, which the endpoint's truthiness
check conflates with a failed fetch: the request is answered with the
"Failed to get document text. Is it public?" not-found error (not the
no-question-blocks error), with an empty trace — the text never reaches the
segmenter or the classifier. -/
theorem C9_empty_body (apiKey : Option String) (docUrl : String)
    (stub : Nat → OracleResult) (d : List Char)
    (hk : pyTruthyOpt apiKey = true)
    (hd : extract_doc_id docUrl.toList = some d) :
    get_google_doc_text (.http 200 "") = some ""
    ∧ audit_document apiKey docUrl (fun _ => get_google_doc_text (.http 200 "")) stub
      = (.httpError 404 "Failed to get document text. Is it public?", []) := by
  constructor
  · rfl
  · unfold audit_document
    simp only [hk, hd, Bool.not_true, Bool.false_eq_true, if_false]
    rfl

/-- C9 witness: the conflation at a concrete request. -/
theorem C9_empty_body_witness :
    get_google_doc_text (.http 200 "") = some ""
    ∧ audit_document (some "k") "https://docs.google.com/document/d/abc/edit"
        (fun _ => get_google_doc_text (.http 200 "")) (fun _ => OracleResult.failed)
      = (.httpError 404 "Failed to get document text. Is it public?", []) :=
  C9_empty_body (some "k") "https://docs.google.com/document/d/abc/edit"
    (fun _ => OracleResult.failed) "abc".toList (by decide) (by decide)
